import Mathlib

/-!
Shallow embedding of the offline e-cash core found in
src/Task3/tempCodeRunnerFile.js: the coin-string codec (parseCoin), the
merchant acceptance procedure (acceptCoin) and the double-spend detector
(determineCheater).

Modelling conventions:
- JS byte buffers are modelled as lists of natural numbers (Bytes).
- Out-of-range JS array indexing yields undefined; we model element access
  with Option via l[i]? so that undefined is none.
- A JS throw is modelled as Except.error with an inductive error type; each
  distinct throw site of the source gets its own constructor.  The error
  types also carry the error kinds named by the design document even when
  the source never raises them, so that claims about those kinds can be
  stated; the embedded code never produces such a constructor unless the
  corresponding throw exists in the source.
- The files coin.js and utils.js required by the source are not part of the
  repository snapshot; the constants and helpers they export are modelled
  from the design document and marked as such in their doc comments.
-/

deriving instance DecidableEq for Except

namespace ECash

/-- Byte strings: JS buffers modelled as lists of byte values. -/
abbrev Bytes := List Nat

/-- Modelled from the spec: BANK_STR, the fixed constant identifying the
issuer, exported by the missing coin.js.  A fixed literal containing no
dash, as required by the canonical coin-string format. -/
def BANK_STR : String := "ELECTRONIC_PIGGYBANK"

/-- Modelled from the spec: COIN_RIS_LENGTH, the fixed protocol parameter N
(number of challenge indices), exported by the missing coin.js. -/
def COIN_RIS_LENGTH : Nat := 20

/-- Modelled from the spec: IDENT_STR, the fixed literal identity-marker
prefix exported by the missing coin.js.  Per the identity-marker
convention it is the literal before the colon delimiter, so it does not
itself contain the colon byte. -/
def IDENT_STR : Bytes := [73, 68, 69, 78, 84]

/-- The byte value of the colon delimiter of the identity-marker
convention. -/
def IDENT_DELIM : Nat := 58

/-- Modelled from the spec: utils.xorBuffers from the missing utils.js,
the pointwise exclusive-or of two byte strings. -/
def xorBuffers (a b : Bytes) : Bytes := List.zipWith Nat.xor a b

/-- JS single-character String.split: splits on every occurrence of the
separator, keeping empty pieces. -/
def jsSplit (sep : Char) (s : String) : List String :=
  (s.data.splitOn sep).map String.mk

/-- Errors arising from parseCoin.  The source throws a plain Error with an
invalid-identity-string message when the first field differs from BANK_STR
(the wrong-issuer MalformedCoinError of the design document), and a generic
JS TypeError when split is called on an undefined field.  The wrong-length
MalformedCoinError named by the design document is included so claims
about it can be stated. -/
inductive ParseErr where
  | malformedWrongIssuer
  | malformedWrongLength
  | typeError
deriving DecidableEq

/-- Embedding of parseCoin (src/Task3/tempCodeRunnerFile.js, lines 33-41):
destructures the five dash-separated fields (extra fields are dropped,
missing fields are undefined), throws when the first field differs from
BANK_STR, then splits the fourth and fifth fields on commas.  Calling
split on an undefined field is the JS TypeError. -/
def parseCoin (s : String) : Except ParseErr (List String × List String) :=
  let fields := jsSplit '-' s
  if fields[0]? ≠ some BANK_STR then
    .error .malformedWrongIssuer
  else
    match fields[3]?, fields[4]? with
    | some leftHashes, some rightHashes =>
        .ok (jsSplit ',' leftHashes, jsSplit ',' rightHashes)
    | _, _ => .error .typeError

/-- The three classifications logged by determineCheater.  The owner-cheater
branch logs the element at index 1 of the colon-split of the recovered
value, which is undefined (none) when the recovered value holds no colon. -/
inductive Classification where
  | falseClaim
  | ownerCheater (identity : Option Bytes)
  | merchantCheater
deriving DecidableEq

/-- Errors arising from determineCheater.  Building a buffer from an
undefined transcript entry is the JS TypeError.  The InputMismatchError
named by the design document is included so claims about it can be
stated; the source has no corresponding throw. -/
inductive DetectErr where
  | typeError
  | inputMismatch
deriving DecidableEq

/-- The scanning loop of determineCheater, starting at index i with the
given remaining iteration count.  At the first index whose entries differ
it exclusive-ors the two entries; if the result starts with IDENT_STR it
reports the owner cheater with the element at index 1 of the colon-split,
otherwise a merchant cheater.  If either entry is undefined there (the two
transcripts having different lengths), building the buffer throws. -/
def detectFrom (ris1 ris2 : List Bytes) (i : Nat) :
    Nat → Except DetectErr Classification
  | 0 => .ok .falseClaim
  | fuel + 1 =>
    if ris1[i]? = ris2[i]? then
      detectFrom ris1 ris2 (i + 1) fuel
    else
      match ris1[i]?, ris2[i]? with
      | some s1, some s2 =>
          let x := xorBuffers s1 s2
          if IDENT_STR.isPrefixOf x then
            .ok (.ownerCheater ((x.splitOn IDENT_DELIM)[1]?))
          else
            .ok .merchantCheater
      | _, _ => .error .typeError

/-- Embedding of determineCheater (src/Task3/tempCodeRunnerFile.js, lines
89-110): scans indices 0 to COIN_RIS_LENGTH - 1 in order; the guid argument
is only logged, never inspected. -/
def determineCheater (guid : String) (ris1 ris2 : List Bytes) :
    Except DetectErr Classification :=
  detectFrom ris1 ris2 0 COIN_RIS_LENGTH

/-- The coin data used by acceptCoin: public commitment data, secret
shares, and the unblinded signature (an opaque string). -/
structure Coin where
  amount : String
  guid : String
  leftShares : List Bytes
  rightShares : List Bytes
  leftHashes : List String
  rightHashes : List String
  signature : String
deriving DecidableEq

/-- Joins a list of strings with commas, as the JS Array.join with a comma
separator. -/
def joinComma (hs : List String) : String :=
  String.mk (List.intercalate [','] (hs.map String.data))

/-- Modelled from the spec: the canonical coin string produced by the
missing coin.js toString method: bank tag, amount, guid, comma-joined left
hash list and comma-joined right hash list, dash-separated. -/
def Coin.toString (c : Coin) : String :=
  BANK_STR ++ "-" ++ c.amount ++ "-" ++ c.guid ++ "-"
    ++ joinComma c.leftHashes ++ "-" ++ joinComma c.rightHashes

/-- Modelled from the spec: the getRis method of the missing coin.js,
returning the disclosed share for the chosen side at the given index
(undefined out of range). -/
def Coin.getRis (c : Coin) (isLeft : Bool) (i : Nat) : Option Bytes :=
  if isLeft then c.leftShares[i]? else c.rightShares[i]?

/-- Errors arising from acceptCoin: the invalid-signature throw, an error
propagated from parseCoin, the forgery throw on a hash mismatch, and the
JS TypeError from hashing an undefined share. -/
inductive AcceptErr where
  | invalidSignature
  | parseError (e : ParseErr)
  | forgery
  | typeError
deriving DecidableEq

/-- The challenge loop of acceptCoin, starting at index i with the given
remaining iteration count.  The hash function and the per-index challenge
bits are external collaborators passed explicitly.  Each iteration draws a
bit, requests the share of the chosen side, hashes it and compares against
the committed hash of that side (undefined when the parsed hash list is
too short, which can never equal a hash string); a mismatch throws the
forgery error and discards all work, otherwise the share is appended. -/
def acceptFrom (hash : Bytes → String) (bits : Nat → Bool) (c : Coin)
    (leftHashes rightHashes : List String) (i : Nat) :
    Nat → Except AcceptErr (List Bytes)
  | 0 => .ok []
  | fuel + 1 =>
    let isLeft := bits i
    match c.getRis isLeft i with
    | none => .error .typeError
    | some value =>
      let expected := if isLeft then leftHashes[i]? else rightHashes[i]?
      if some (hash value) ≠ expected then
        .error .forgery
      else
        match acceptFrom hash bits c leftHashes rightHashes (i + 1) fuel with
        | .error e => .error e
        | .ok rest => .ok (value :: rest)

/-- Embedding of acceptCoin (src/Task3/tempCodeRunnerFile.js, lines 49-80):
first verifies the signature against the canonical coin string through the
external blind-signature verifier (passed as an oracle taking the
signature and the message, the key material being captured in the oracle),
then parses the canonical string into the two hash lists, then runs the
COIN_RIS_LENGTH challenge iterations. -/
def acceptCoin (hash : Bytes → String) (verify : String → String → Bool)
    (bits : Nat → Bool) (c : Coin) : Except AcceptErr (List Bytes) :=
  if !(verify c.signature c.toString) then
    .error .invalidSignature
  else
    match parseCoin c.toString with
    | .error e => .error (.parseError e)
    | .ok (leftHashes, rightHashes) =>
        acceptFrom hash bits c leftHashes rightHashes 0 COIN_RIS_LENGTH

/-- The transcript disclosed by the challenge loop: for each index in the
scanned range, the share of the side chosen by the bit source. -/
def transcriptFrom (c : Coin) (bits : Nat → Bool) (i fuel : Nat) : List Bytes :=
  (List.range' i fuel).filterMap (fun j => c.getRis (bits j) j)

/-- A verifier rejecting every signature. -/
def badVerify : String → String → Bool := fun _ _ => false

/-- A coin like okCoin except that the committed left hash at index 0 is
tampered to x, which no share hashes to under okHash. -/
def badCoin : Coin :=
  ⟨"1", "g", List.replicate 20 [0], List.replicate 20 [1],
   "x" :: List.replicate 19 "h", List.replicate 20 "h", "sig"⟩

/-- A hash oracle used by the concrete instances below: constant, so every
share trivially hashes to the committed value h. -/
def okHash : Bytes → String := fun _ => "h"

/-- A verifier accepting every signature. -/
def okVerify : String → String → Bool := fun _ _ => true

/-- A bit source always choosing the left side. -/
def okBits : Nat → Bool := fun _ => true

/-- A well-formed coin with COIN_RIS_LENGTH shares and commitments
matching okHash. -/
def okCoin : Coin :=
  ⟨"1", "g", List.replicate 20 [0], List.replicate 20 [1],
   List.replicate 20 "h", List.replicate 20 "h", "sig"⟩

/-- Scanning from index i with enough remaining iterations skips over any
block of indices where the two transcripts agree. -/
lemma detectFrom_agree_skip (r1 r2 : List Bytes) :
    ∀ (k i fuel : Nat), k ≤ fuel →
      (∀ j, j < k → r1[i + j]? = r2[i + j]?) →
      detectFrom r1 r2 i fuel = detectFrom r1 r2 (i + k) (fuel - k) := by
  intro k
  induction k with
  | zero => intro i fuel _ _; simp
  | succ k ih =>
    intro i fuel hk hag
    cases fuel with
    | zero => exact absurd hk (by omega)
    | succ fuel =>
      have h0 : r1[i]? = r2[i]? := by simpa using hag 0 (Nat.succ_pos k)
      have hstep : detectFrom r1 r2 i (fuel + 1) = detectFrom r1 r2 (i + 1) fuel := by
        simp [detectFrom, h0]
      have hrest := ih (i + 1) fuel (Nat.le_of_succ_le_succ hk) (fun j hj => by
        have hj1 := hag (j + 1) (Nat.succ_lt_succ hj)
        have e : i + (j + 1) = i + 1 + j := by omega
        rwa [e] at hj1)
      rw [hstep, hrest, show i + 1 + k = i + (k + 1) from by omega,
        show fuel - k = fuel + 1 - (k + 1) from by omega]

/-- The scanning loop never produces the input-mismatch error: no branch of
the source raises it. -/
lemma detectFrom_ne_inputMismatch (r1 r2 : List Bytes) :
    ∀ (fuel i : Nat), detectFrom r1 r2 i fuel ≠ .error .inputMismatch := by
  intro fuel
  induction fuel with
  | zero => intro i h; simp [detectFrom] at h
  | succ fuel ih =>
    intro i h
    simp only [detectFrom] at h
    split at h
    · exact ih (i + 1) h
    · split at h
      · split at h <;> simp at h
      · simp at h

/-- C1 (amended): for transcripts of length COIN_RIS_LENGTH differing at
some index, the detector classifies by the first differing index only: it
exclusive-ors the two entries there and reports the owner cheater exactly
when the result begins with the identity marker (the colon delimiter is
not separately checked), with identity the element at index 1 of the
colon-split of the recovered value (none when it holds no colon);
otherwise it reports a merchant cheater. -/
theorem determineCheater_first_diff (g : String) (r1 r2 : List Bytes)
    (i : Nat) (a b : Bytes)
    (hlen1 : r1.length = COIN_RIS_LENGTH) (hlen2 : r2.length = COIN_RIS_LENGTH)
    (hi : i < COIN_RIS_LENGTH)
    (hfirst : ∀ j, j < i → r1[j]? = r2[j]?)
    (ha : r1[i]? = some a) (hb : r2[i]? = some b) (hab : a ≠ b) :
    determineCheater g r1 r2 =
      .ok (if IDENT_STR.isPrefixOf (xorBuffers a b) then
            Classification.ownerCheater ((xorBuffers a b).splitOn IDENT_DELIM)[1]?
          else Classification.merchantCheater) := by
  unfold determineCheater
  rw [detectFrom_agree_skip r1 r2 i 0 COIN_RIS_LENGTH (le_of_lt hi)
    (fun j hj => by simpa using hfirst j hj)]
  obtain ⟨d, hd⟩ : ∃ d, COIN_RIS_LENGTH - i = d + 1 := ⟨COIN_RIS_LENGTH - i - 1, by omega⟩
  have hne : r1[i]? ≠ r2[i]? := by rw [ha, hb]; simp [hab]
  rw [Nat.zero_add, hd]
  simp only [detectFrom, ha, hb]
  rw [if_neg (show ¬ (some a = some b) by simp [hab])]
  split <;> rfl

/-- C1 counterexample: the claim requires the owner-cheater classification
only when the recovered value begins with the marker followed by the colon
delimiter, and with the whole payload after the delimiter as identity.  At
the first input below the recovered value is the marker followed by the
byte 88 with no colon anywhere, yet the detector still reports the owner
cheater (with an undefined identity) instead of a merchant cheater; at the
second the payload after the delimiter holds a further colon and the
detector reports only the segment before it. -/
theorem determineCheater_first_diff_cex :
    (IDENT_STR ++ [IDENT_DELIM]).isPrefixOf
        (xorBuffers [73, 68, 69, 78, 84, 88] [0, 0, 0, 0, 0, 0]) = false ∧
    determineCheater "g" ([73, 68, 69, 78, 84, 88] :: List.replicate 19 [0])
        ([0, 0, 0, 0, 0, 0] :: List.replicate 19 [0])
      = .ok (.ownerCheater none) ∧
    determineCheater "g"
        ([73, 68, 69, 78, 84, 58, 97, 108, 58, 105, 99, 101] :: List.replicate 19 [0])
        ([0, 0, 0, 0, 0, 0, 0, 0, 0, 0, 0, 0] :: List.replicate 19 [0])
      = .ok (.ownerCheater (some [97, 108])) := by
  decide

/-- C1 witness: the amended theorem applied to concrete transcripts of
length COIN_RIS_LENGTH differing first at index 1. -/
theorem determineCheater_first_diff_witness :
    determineCheater "w" ([7] :: [1] :: List.replicate 18 [0])
        ([7] :: [2] :: List.replicate 18 [0]) = .ok .merchantCheater := by
  have h := determineCheater_first_diff "w" ([7] :: [1] :: List.replicate 18 [0])
    ([7] :: [2] :: List.replicate 18 [0]) 1 [1] [2]
    (by decide) (by decide) (by decide)
    (by decide) (by decide) (by decide) (by decide)
  simpa using h

/-- C2: whenever the two transcripts agree at every index scanned, the
detector reports the false claim (merchant fraudulently claiming a double
spend), never the owner cheater. -/
theorem determineCheater_identical (g : String) (r1 r2 : List Bytes)
    (hag : ∀ i, i < COIN_RIS_LENGTH → r1[i]? = r2[i]?) :
    determineCheater g r1 r2 = .ok .falseClaim := by
  unfold determineCheater
  rw [detectFrom_agree_skip r1 r2 COIN_RIS_LENGTH 0 COIN_RIS_LENGTH le_rfl
    (fun j hj => by simpa using hag j hj)]
  simp [detectFrom]

/-- C2 witness: the theorem applied to a concrete transcript compared with
itself. -/
theorem determineCheater_identical_witness :
    determineCheater "w" (List.replicate 20 [3]) (List.replicate 20 [3])
      = .ok .falseClaim :=
  determineCheater_identical "w" _ _ (fun _ _ => rfl)

/-- C6 (amended): the detector performs no precondition check at all: its
result does not depend on the guid argument (which the source only logs),
and it never raises the input-mismatch error; transcripts of mismatched
lengths or from different coins are scanned like any others. -/
theorem determineCheater_no_precondition_check :
    (∀ g1 g2 r1 r2, determineCheater g1 r1 r2 = determineCheater g2 r1 r2) ∧
    (∀ g r1 r2, determineCheater g r1 r2 ≠ .error .inputMismatch) :=
  ⟨fun _ _ _ _ => rfl,
   fun _ r1 r2 => detectFrom_ne_inputMismatch r1 r2 COIN_RIS_LENGTH 0⟩

/-- C6 counterexample: called on transcripts of different lengths (one
entry versus twenty), the detector does not raise any input-mismatch
error before scanning; it scans and classifies normally. -/
theorem determineCheater_length_mismatch_cex :
    ([[1]] : List Bytes).length ≠ (List.replicate 20 ([0] : Bytes)).length ∧
    determineCheater "g" [[1]] (List.replicate 20 [0]) = .ok .merchantCheater ∧
    determineCheater "g" [[1]] (List.replicate 20 [0]) ≠ .error .inputMismatch := by
  decide

/-- C6 witness: the amended theorem applied at concrete inputs, including a
pair of transcripts of mismatched lengths under two different guids. -/
theorem determineCheater_no_precondition_check_witness :
    determineCheater "g1" [[1]] (List.replicate 20 [0])
      = determineCheater "g2" [[1]] (List.replicate 20 [0]) ∧
    determineCheater "g1" [[1]] (List.replicate 20 [0]) ≠ .error .inputMismatch :=
  ⟨determineCheater_no_precondition_check.1 "g1" "g2" [[1]] (List.replicate 20 [0]),
   determineCheater_no_precondition_check.2 "g1" [[1]] (List.replicate 20 [0])⟩

/-- Splitting a list on a separator yields one more piece than the number
of separator occurrences. -/
lemma length_splitOn {α : Type} [DecidableEq α] (x : α) (l : List α) :
    (l.splitOn x).length = l.count x + 1 := by
  induction l with
  | nil => simp [List.splitOn, List.splitOnP_nil]
  | cons a l ih =>
    simp only [List.splitOn, List.splitOnP_cons] at ih ⊢
    by_cases h : a = x
    · subst h
      simp [List.splitOnP_cons, ih, List.count_cons]
    · simp [List.splitOnP_cons, ih, List.count_cons, h]

/-- C9: an input string whose first dash-delimited field differs from the
bank tag constant is rejected by parseCoin with the wrong-issuer error
(the invalid-identity-string throw of the source), and no hash lists are
returned. -/
theorem parseCoin_wrong_issuer (s : String)
    (h : (jsSplit '-' s)[0]? ≠ some BANK_STR) :
    parseCoin s = .error .malformedWrongIssuer := by
  simp [parseCoin, h]

/-- C9 witness: the theorem applied to a concrete string carrying a wrong
issuer tag. -/
theorem parseCoin_wrong_issuer_witness :
    parseCoin "X-1-g-aa-bb" = .error .malformedWrongIssuer :=
  parseCoin_wrong_issuer _ (by decide)

/-- C5 counterexample: parseCoin accepts a string whose hash lists have
length one rather than COIN_RIS_LENGTH, returning them unchecked instead
of raising the wrong-length error. -/
theorem parseCoin_no_length_check_cex :
    parseCoin (BANK_STR ++ "-1-g-aa-bb") = .ok (["aa"], ["bb"]) ∧
    (["aa"] : List String).length ≠ COIN_RIS_LENGTH ∧
    parseCoin (BANK_STR ++ "-1-g-aa-bb") ≠ .error .malformedWrongLength := by
  decide

/-- C5 (amended): parseCoin validates only the bank tag.  It never raises
the wrong-length error; whenever the tag matches and the fourth and fifth
dash-delimited fields exist, it returns their comma-splits whatever their
lengths. -/
theorem parseCoin_only_tag_check :
    (∀ s, parseCoin s ≠ .error .malformedWrongLength) ∧
    (∀ s lh rh, (jsSplit '-' s)[0]? = some BANK_STR →
      (jsSplit '-' s)[3]? = some lh → (jsSplit '-' s)[4]? = some rh →
      parseCoin s = .ok (jsSplit ',' lh, jsSplit ',' rh)) := by
  constructor
  · intro s h
    simp only [parseCoin] at h
    split at h
    · simp at h
    · split at h <;> simp at h
  · intro s lh rh h0 h3 h4
    simp [parseCoin, h0, h3, h4]

/-- C5 witness: the amended theorem applied to a concrete string with
single-element hash lists. -/
theorem parseCoin_only_tag_check_witness :
    parseCoin (BANK_STR ++ "-1-g-aa-bb") ≠ .error .malformedWrongLength ∧
    parseCoin (BANK_STR ++ "-1-g-aa-bb") = .ok (["aa"], ["bb"]) :=
  ⟨parseCoin_only_tag_check.1 _,
   (parseCoin_only_tag_check.2 (BANK_STR ++ "-1-g-aa-bb") "aa" "bb"
     (by decide) (by decide) (by decide)).trans (by decide)⟩

/-- C10: on a string with fewer than four dashes (hence fewer than five
dash-delimited fields) whose first field is the correct bank tag,
parseCoin fails with the generic JS type error of calling split on an
undefined field, not with any malformed-coin error. -/
theorem parseCoin_few_fields_typeError (s : String)
    (hcount : s.data.count '-' < 4)
    (htag : (jsSplit '-' s)[0]? = some BANK_STR) :
    parseCoin s = .error .typeError := by
  have hlen : (jsSplit '-' s).length < 5 := by
    have hc := length_splitOn '-' s.data
    simp only [jsSplit, List.length_map, hc]
    omega
  have h4 : (jsSplit '-' s)[4]? = none := List.getElem?_eq_none (by omega)
  simp only [parseCoin]
  rw [if_neg (by simp [htag])]
  rcases h3 : (jsSplit '-' s)[3]? with _ | lh <;> simp [h3, h4]

/-- C10 witness: the theorem applied to a concrete three-field string with
the correct bank tag. -/
theorem parseCoin_few_fields_typeError_witness :
    (BANK_STR ++ "-1-g").data.count '-' < 4 ∧
    parseCoin (BANK_STR ++ "-1-g") = .error .typeError :=
  ⟨by decide, parseCoin_few_fields_typeError _ (by decide) (by decide)⟩

/-- Rebuilding a string from its first field makes splitOn peel it off when
the field is free of the separator. -/
lemma splitOn_append_sep {α : Type} [DecidableEq α] (x : α) (l1 l2 : List α)
    (h : ∀ c ∈ l1, c ≠ x) :
    (l1 ++ x :: l2).splitOn x = l1 :: l2.splitOn x := by
  have key : (l1 ++ x :: l2).splitOnP (· == x) = l1 :: l2.splitOnP (· == x) := by
    apply List.splitOnP_first
    · intro c hc; simp [h c hc]
    · simp
  simpa [List.splitOn] using key

/-- A list free of the separator splits into the single piece holding the
whole list. -/
lemma splitOn_no_sep {α : Type} [DecidableEq α] (x : α) (l : List α)
    (h : ∀ c ∈ l, c ≠ x) : l.splitOn x = [l] := by
  have key : l.splitOnP (· == x) = [l] := by
    apply List.splitOnP_eq_single
    intro c hc; simp [h c hc]
  simpa [List.splitOn] using key

/-- Every element of a singleton-separated intercalation is the separator
or comes from one of the pieces. -/
lemma mem_intercalate_singleton {α : Type} (x : α) (ch : α) :
    ∀ ls : List (List α), ch ∈ List.intercalate [x] ls →
      ch = x ∨ ∃ l ∈ ls, ch ∈ l
  | [] => by simp [List.intercalate]
  | [l] => fun h => by
      simp only [List.intercalate, List.intersperse_single, List.flatten] at h
      exact Or.inr ⟨l, by simp, by simpa using h⟩
  | l :: l2 :: t => fun h => by
      have hstep : List.intercalate [x] (l :: l2 :: t)
          = l ++ x :: List.intercalate [x] (l2 :: t) := by
        simp [List.intercalate]
      rw [hstep, List.mem_append] at h
      rcases h with h | h
      · exact Or.inr ⟨l, by simp, h⟩
      · rcases List.mem_cons.1 h with h | h
        · exact Or.inl h
        · rcases mem_intercalate_singleton x ch (l2 :: t) h with h1 | ⟨m, hm, hchm⟩
          · exact Or.inl h1
          · exact Or.inr ⟨m, by simp [hm], hchm⟩

/-- Characters of a comma-join are commas or characters of the joined
strings. -/
lemma joinComma_chars (hs : List String) (ch : Char)
    (h : ch ∈ (joinComma hs).data) : ch = ',' ∨ ∃ s ∈ hs, ch ∈ s.data := by
  rcases mem_intercalate_singleton ',' ch (hs.map String.data)
      (by simpa [joinComma] using h) with h1 | ⟨l, hl, hch⟩
  · exact Or.inl h1
  · obtain ⟨s, hs1, rfl⟩ := List.mem_map.1 hl
    exact Or.inr ⟨s, hs1, hch⟩

/-- Rebuilding a string from any list through String.mk is the identity on
its character data. -/
lemma mk_data (s : String) : String.mk s.data = s := rfl

/-- Splitting a comma-join on commas recovers the joined strings when they
are nonempty as a list and comma-free. -/
lemma jsSplit_joinComma (hs : List String) (hne : hs ≠ [])
    (hc : ∀ s ∈ hs, ∀ ch ∈ s.data, ch ≠ ',') :
    jsSplit ',' (joinComma hs) = hs := by
  show ((List.intercalate [','] (hs.map String.data)).splitOn ',').map String.mk = hs
  have key : (List.intercalate [','] (hs.map String.data)).splitOn ','
      = hs.map String.data := by
    apply List.splitOn_intercalate
    · intro l hl
      obtain ⟨s, hs1, rfl⟩ := List.mem_map.1 hl
      intro hch
      exact hc s hs1 ',' hch rfl
    · simpa using hne
  rw [key, List.map_map]
  exact List.map_id'' (fun s => rfl) hs


/-- The canonical coin string splits on dashes into exactly its five
fields when amount, guid and the two joined hash lists are dash-free. -/
lemma toString_fields (c : Coin)
    (hamt : ∀ ch ∈ c.amount.data, ch ≠ '-')
    (hguid : ∀ ch ∈ c.guid.data, ch ≠ '-')
    (hl : ∀ ch ∈ (joinComma c.leftHashes).data, ch ≠ '-')
    (hr : ∀ ch ∈ (joinComma c.rightHashes).data, ch ≠ '-') :
    jsSplit '-' c.toString = [BANK_STR, c.amount, c.guid,
      joinComma c.leftHashes, joinComma c.rightHashes] := by
  unfold jsSplit
  have hdata : c.toString.data = BANK_STR.data ++ '-' :: (c.amount.data
      ++ '-' :: (c.guid.data ++ '-' :: ((joinComma c.leftHashes).data
      ++ '-' :: (joinComma c.rightHashes).data))) := by
    simp [Coin.toString, String.data_append]
  rw [hdata]
  rw [splitOn_append_sep '-' BANK_STR.data _ (by decide)]
  rw [splitOn_append_sep '-' c.amount.data _ hamt]
  rw [splitOn_append_sep '-' c.guid.data _ hguid]
  rw [splitOn_append_sep '-' (joinComma c.leftHashes).data _ hl]
  rw [splitOn_no_sep '-' (joinComma c.rightHashes).data hr]
  simp [mk_data]

/-- Decoding the canonical string of a well-formed coin returns exactly its
two hash commitment lists. -/
lemma parseCoin_toString (c : Coin)
    (hamt : ∀ ch ∈ c.amount.data, ch ≠ '-')
    (hguid : ∀ ch ∈ c.guid.data, ch ≠ '-')
    (hlh : ∀ s ∈ c.leftHashes, ∀ ch ∈ s.data, ch ≠ '-' ∧ ch ≠ ',')
    (hrh : ∀ s ∈ c.rightHashes, ∀ ch ∈ s.data, ch ≠ '-' ∧ ch ≠ ',')
    (hlne : c.leftHashes ≠ []) (hrne : c.rightHashes ≠ []) :
    parseCoin c.toString = .ok (c.leftHashes, c.rightHashes) := by
  have hjl : ∀ ch ∈ (joinComma c.leftHashes).data, ch ≠ '-' := by
    intro ch hch
    rcases joinComma_chars _ _ hch with h | ⟨s, hs1, hch1⟩
    · subst h; decide
    · exact (hlh s hs1 ch hch1).1
  have hjr : ∀ ch ∈ (joinComma c.rightHashes).data, ch ≠ '-' := by
    intro ch hch
    rcases joinComma_chars _ _ hch with h | ⟨s, hs1, hch1⟩
    · subst h; decide
    · exact (hrh s hs1 ch hch1).1
  have hfields := toString_fields c hamt hguid hjl hjr
  simp only [parseCoin, hfields]
  rw [if_neg (by simp)]
  simp only [List.getElem?_cons_succ, List.getElem?_cons_zero]
  rw [jsSplit_joinComma c.leftHashes hlne (fun s hs1 ch hch => (hlh s hs1 ch hch).2),
    jsSplit_joinComma c.rightHashes hrne (fun s hs1 ch hch => (hrh s hs1 ch hch).2)]

/-- C7: round-trip law: decoding the canonical encoded string of a valid
coin (hash lists of length COIN_RIS_LENGTH, amount and guid free of the
dash delimiter, hash strings free of both delimiters) returns exactly the
coin's left and right hash commitment lists. -/
theorem parseCoin_roundtrip (c : Coin)
    (hamt : ∀ ch ∈ c.amount.data, ch ≠ '-')
    (hguid : ∀ ch ∈ c.guid.data, ch ≠ '-')
    (hlh : ∀ s ∈ c.leftHashes, ∀ ch ∈ s.data, ch ≠ '-' ∧ ch ≠ ',')
    (hrh : ∀ s ∈ c.rightHashes, ∀ ch ∈ s.data, ch ≠ '-' ∧ ch ≠ ',')
    (hllen : c.leftHashes.length = COIN_RIS_LENGTH)
    (hrlen : c.rightHashes.length = COIN_RIS_LENGTH) :
    parseCoin c.toString = .ok (c.leftHashes, c.rightHashes) :=
  parseCoin_toString c hamt hguid hlh hrh
    (fun h => by simp [h, COIN_RIS_LENGTH] at hllen)
    (fun h => by simp [h, COIN_RIS_LENGTH] at hrlen)

/-- C7 witness: the round-trip theorem applied to the concrete coin
okCoin. -/
theorem parseCoin_roundtrip_witness :
    parseCoin okCoin.toString = .ok (okCoin.leftHashes, okCoin.rightHashes) :=
  parseCoin_roundtrip okCoin (by decide) (by decide) (by decide) (by decide)
    (by decide) (by decide)

/-- A transcript returned by the challenge loop with a given remaining
iteration count has exactly that many entries. -/
lemma acceptFrom_ok_length {hash : Bytes → String} {bits : Nat → Bool}
    {c : Coin} {lh rh : List String} :
    ∀ {fuel i : Nat} {t}, acceptFrom hash bits c lh rh i fuel = .ok t →
      t.length = fuel := by
  intro fuel
  induction fuel with
  | zero =>
    intro i t h
    simp only [acceptFrom] at h
    cases h
    rfl
  | succ fuel ih =>
    intro i t h
    simp only [acceptFrom] at h
    split at h
    · simp at h
    · split at h
      · split at h
        · simp at h
        · split at h
          · simp at h
          · next rest heq => cases h; simp [ih heq]
      · split at h
        · simp at h
        · split at h
          · simp at h
          · next rest heq => cases h; simp [ih heq]

/-- The challenge loop propagates an error arising after a block of
passing indices unchanged. -/
lemma acceptFrom_error_skip {hash : Bytes → String} {bits : Nat → Bool}
    {c : Coin} {lh rh : List String} :
    ∀ (k i fuel : Nat) (e : AcceptErr), k ≤ fuel →
      (∀ j, j < k → ∃ w, c.getRis (bits (i + j)) (i + j) = some w ∧
        some (hash w) = (if bits (i + j) then lh[i + j]? else rh[i + j]?)) →
      acceptFrom hash bits c lh rh (i + k) (fuel - k) = .error e →
      acceptFrom hash bits c lh rh i fuel = .error e := by
  intro k
  induction k with
  | zero => intro i fuel e _ _ h; simpa using h
  | succ k ih =>
    intro i fuel e hk hpass h
    cases fuel with
    | zero => exact absurd hk (by omega)
    | succ fuel =>
      obtain ⟨w, hw, hmatch⟩ := hpass 0 (Nat.succ_pos k)
      rw [Nat.add_zero] at hw hmatch
      simp only [acceptFrom, hw]
      rw [if_neg (by simp [hmatch])]
      have hrec := ih (i + 1) fuel e (by omega)
        (fun j hj => by
          have := hpass (j + 1) (Nat.succ_lt_succ hj)
          rwa [show i + (j + 1) = i + 1 + j from by omega] at this)
        (by rwa [show i + 1 + k = i + (k + 1) from by omega,
          show fuel - k = fuel + 1 - (k + 1) from by omega])
      rw [hrec]

/-- When every scanned index passes its hash check, the challenge loop
returns exactly the transcript of chosen shares. -/
lemma acceptFrom_all_ok {hash : Bytes → String} {bits : Nat → Bool}
    {c : Coin} {lh rh : List String} :
    ∀ (fuel i : Nat),
      (∀ j, j < fuel → ∃ w, c.getRis (bits (i + j)) (i + j) = some w ∧
        some (hash w) = (if bits (i + j) then lh[i + j]? else rh[i + j]?)) →
      acceptFrom hash bits c lh rh i fuel = .ok (transcriptFrom c bits i fuel) := by
  intro fuel
  induction fuel with
  | zero => intro i _; simp [acceptFrom, transcriptFrom]
  | succ fuel ih =>
    intro i hpass
    obtain ⟨w, hw, hmatch⟩ := hpass 0 (Nat.succ_pos fuel)
    rw [Nat.add_zero] at hw hmatch
    have hrec := ih (i + 1) (fun j hj => by
      have := hpass (j + 1) (Nat.succ_lt_succ hj)
      rwa [show i + (j + 1) = i + 1 + j from by omega] at this)
    simp only [acceptFrom, hw]
    rw [if_neg (by simp [hmatch]), hrec]
    simp only [transcriptFrom, List.range'_succ, List.filterMap_cons, hw]

/-- Entry j of the transcript of chosen shares is the share chosen at the
corresponding absolute index, as long as every scanned index discloses a
share. -/
lemma transcriptFrom_get {bits : Nat → Bool} {c : Coin} :
    ∀ (fuel i : Nat),
      (∀ j, j < fuel → ∃ w, c.getRis (bits (i + j)) (i + j) = some w) →
      ∀ j, j < fuel →
        (transcriptFrom c bits i fuel)[j]? = c.getRis (bits (i + j)) (i + j) := by
  intro fuel
  induction fuel with
  | zero => intro i _ j hj; exact absurd hj (by omega)
  | succ fuel ih =>
    intro i hsome j hj
    obtain ⟨w, hw⟩ := hsome 0 (Nat.succ_pos fuel)
    rw [Nat.add_zero] at hw
    have hstep : transcriptFrom c bits i (fuel + 1)
        = w :: transcriptFrom c bits (i + 1) fuel := by
      simp only [transcriptFrom, List.range'_succ, List.filterMap_cons, hw]
    rw [hstep]
    cases j with
    | zero => simp [hw]
    | succ j =>
      have := ih (i + 1) (fun m hm => by
        have := hsome (m + 1) (Nat.succ_lt_succ hm)
        rwa [show i + (m + 1) = i + 1 + m from by omega] at this)
        j (by omega)
      rw [List.getElem?_cons_succ, this,
        show i + 1 + j = i + (j + 1) from by omega]

/-- C3: the bank signature is checked against the canonical coin string
first: whenever the verifier rejects, acceptCoin raises the
invalid-signature error without decoding the coin, issuing any challenge
or producing any transcript (the result is this error for every coin,
including coins whose canonical string would not even parse). -/
theorem acceptCoin_bad_signature (hash : Bytes → String)
    (verify : String → String → Bool) (bits : Nat → Bool) (c : Coin)
    (h : verify c.signature c.toString = false) :
    acceptCoin hash verify bits c = .error .invalidSignature := by
  simp [acceptCoin, h]

/-- C3 witness: the theorem applied to a concrete coin under the
always-rejecting verifier. -/
theorem acceptCoin_bad_signature_witness :
    acceptCoin okHash badVerify okBits okCoin = .error .invalidSignature :=
  acceptCoin_bad_signature okHash badVerify okBits okCoin rfl

/-- C4: spend acceptance is atomic.  First conjunct: every transcript
acceptCoin returns has length exactly COIN_RIS_LENGTH (so no partial
transcript is ever returned).  Second conjunct: when the signature
verifies, the canonical string parses, every index before i passes its
hash check and at index i the hash of the disclosed share differs from
the committed hash of the chosen side, acceptCoin raises the forgery
error immediately, returning nothing. -/
theorem acceptCoin_atomic :
    (∀ (hash : Bytes → String) (verify : String → String → Bool)
      (bits : Nat → Bool) (c : Coin) (t : List Bytes),
      acceptCoin hash verify bits c = .ok t → t.length = COIN_RIS_LENGTH) ∧
    (∀ (hash : Bytes → String) (verify : String → String → Bool)
      (bits : Nat → Bool) (c : Coin) (lh rh : List String) (i : Nat) (v : Bytes),
      verify c.signature c.toString = true →
      parseCoin c.toString = .ok (lh, rh) →
      i < COIN_RIS_LENGTH →
      (∀ j, j < i → ∃ w, c.getRis (bits j) j = some w ∧
        some (hash w) = (if bits j then lh[j]? else rh[j]?)) →
      c.getRis (bits i) i = some v →
      some (hash v) ≠ (if bits i then lh[i]? else rh[i]?) →
      acceptCoin hash verify bits c = .error .forgery) := by
  constructor
  · intro hash verify bits c t h
    simp only [acceptCoin] at h
    split at h
    · simp at h
    · split at h
      · simp at h
      · exact acceptFrom_ok_length h
  · intro hash verify bits c lh rh i v hsig hparse hi hpass hv hmis
    simp only [acceptCoin, hsig, Bool.not_true, Bool.false_eq_true,
      if_false, hparse]
    obtain ⟨d, hd⟩ : ∃ d, COIN_RIS_LENGTH - i = d + 1 :=
      ⟨COIN_RIS_LENGTH - i - 1, by omega⟩
    refine acceptFrom_error_skip i 0 COIN_RIS_LENGTH .forgery (le_of_lt hi)
      (fun j hj => by simpa using hpass j hj) ?_
    rw [Nat.zero_add, hd]
    simp only [acceptFrom, hv]
    rw [if_pos (by simpa using hmis)]

/-- C4 witness: the first conjunct applied to a run of acceptCoin on the
well-formed okCoin, the second to badCoin whose tampered commitment at
index 0 is hit by the left-choosing bit source. -/
theorem acceptCoin_atomic_witness :
    (List.replicate 20 ([0] : Bytes)).length = COIN_RIS_LENGTH ∧
    acceptCoin okHash okVerify okBits badCoin = .error .forgery := by
  constructor
  · exact acceptCoin_atomic.1 okHash okVerify okBits okCoin
      (List.replicate 20 [0]) (by decide)
  · exact acceptCoin_atomic.2 okHash okVerify okBits badCoin
      ("x" :: List.replicate 19 "h") (List.replicate 20 "h") 0 [0]
      rfl (by decide) (by decide) (fun j hj => absurd hj (by omega))
      (by decide) (by decide)

/-- C8: a validly signed, well-formed coin (commitment lists of the right
length and delimiter-free, shares present at every index and hashing to
the committed value of their side) never triggers the forgery error:
acceptCoin returns the transcript of chosen shares, of length exactly
COIN_RIS_LENGTH, holding at each index the share disclosed for the side
chosen there. -/
theorem acceptCoin_honest (hash : Bytes → String)
    (verify : String → String → Bool) (bits : Nat → Bool) (c : Coin)
    (hsig : verify c.signature c.toString = true)
    (hamt : ∀ ch ∈ c.amount.data, ch ≠ '-')
    (hguid : ∀ ch ∈ c.guid.data, ch ≠ '-')
    (hlh : ∀ s ∈ c.leftHashes, ∀ ch ∈ s.data, ch ≠ '-' ∧ ch ≠ ',')
    (hrh : ∀ s ∈ c.rightHashes, ∀ ch ∈ s.data, ch ≠ '-' ∧ ch ≠ ',')
    (hllen : c.leftHashes.length = COIN_RIS_LENGTH)
    (hrlen : c.rightHashes.length = COIN_RIS_LENGTH)
    (hsl : c.leftShares.length = COIN_RIS_LENGTH)
    (hsr : c.rightShares.length = COIN_RIS_LENGTH)
    (hcl : ∀ i, i < COIN_RIS_LENGTH → (c.leftShares[i]?).map hash = c.leftHashes[i]?)
    (hcr : ∀ i, i < COIN_RIS_LENGTH → (c.rightShares[i]?).map hash = c.rightHashes[i]?) :
    acceptCoin hash verify bits c = .ok (transcriptFrom c bits 0 COIN_RIS_LENGTH) ∧
    (transcriptFrom c bits 0 COIN_RIS_LENGTH).length = COIN_RIS_LENGTH ∧
    ∀ i, i < COIN_RIS_LENGTH →
      (transcriptFrom c bits 0 COIN_RIS_LENGTH)[i]? = c.getRis (bits i) i := by
  have hparse : parseCoin c.toString = .ok (c.leftHashes, c.rightHashes) :=
    parseCoin_toString c hamt hguid hlh hrh
      (fun h => by simp [h, COIN_RIS_LENGTH] at hllen)
      (fun h => by simp [h, COIN_RIS_LENGTH] at hrlen)
  have hpass : ∀ j, j < COIN_RIS_LENGTH → ∃ w, c.getRis (bits j) j = some w ∧
      some (hash w) = (if bits j then c.leftHashes[j]? else c.rightHashes[j]?) := by
    intro j hj
    cases hb : bits j with
    | true =>
      have hjl : j < c.leftShares.length := by omega
      refine ⟨c.leftShares[j], ?_, ?_⟩
      · simp [Coin.getRis, hb, List.getElem?_eq_getElem hjl]
      · have := hcl j hj
        rw [List.getElem?_eq_getElem hjl] at this
        simp at this
        simp [hb, this]
    | false =>
      have hjr : j < c.rightShares.length := by omega
      refine ⟨c.rightShares[j], ?_, ?_⟩
      · simp [Coin.getRis, hb, List.getElem?_eq_getElem hjr]
      · have := hcr j hj
        rw [List.getElem?_eq_getElem hjr] at this
        simp at this
        simp [hb, this]

  have hloop : acceptFrom hash bits c c.leftHashes c.rightHashes 0 COIN_RIS_LENGTH
      = .ok (transcriptFrom c bits 0 COIN_RIS_LENGTH) :=
    acceptFrom_all_ok COIN_RIS_LENGTH 0 (fun j hj => by simpa using hpass j hj)
  refine ⟨?_, acceptFrom_ok_length hloop, ?_⟩
  · simp only [acceptCoin, hsig, Bool.not_true, Bool.false_eq_true, if_false,
      hparse]
    exact hloop
  · intro i hi
    have := transcriptFrom_get COIN_RIS_LENGTH 0
      (fun j hj => by
        obtain ⟨w, hw, _⟩ := hpass j (by simpa using hj)
        exact ⟨w, by simpa using hw⟩) i hi
    simpa using this

/-- C8 witness: the theorem applied to okCoin with the always-accepting
verifier and the left-choosing bit source; entry five of the transcript
is the disclosed left share. -/
theorem acceptCoin_honest_witness :
    acceptCoin okHash okVerify okBits okCoin
      = .ok (transcriptFrom okCoin okBits 0 COIN_RIS_LENGTH) ∧
    (transcriptFrom okCoin okBits 0 COIN_RIS_LENGTH).length = COIN_RIS_LENGTH ∧
    (transcriptFrom okCoin okBits 0 COIN_RIS_LENGTH)[5]?
      = okCoin.getRis (okBits 5) 5 := by
  have h := acceptCoin_honest okHash okVerify okBits okCoin rfl
    (by decide) (by decide) (by decide) (by decide) (by decide) (by decide)
    (by decide) (by decide) (by decide) (by decide)
  exact ⟨h.1, h.2.1, h.2.2 5 (by decide)⟩

end ECash
